import Mathlib

/-!
Verification of the core string/pattern algorithms of the
accelerated-data-lake staging engine.

The development shallowly embeds three source files:

* `StagingEngine/src/getFileType.py` — file-type resolution: filter the
  configured data sources by a full regex match of their
  `fileSettings.fileNamePattern` against the object key, then pick the
  most specific match by the depth of the first wildcard path segment.
* `StagingEngine/src/copyFileFromRawToStaging.py` — staging-key
  computation: folder override / folder-of-key base, optional removal and
  re-addition of date-partition segments, and a single-pass collapse of
  doubled slashes.
* `StagingEngine/src/startFileProcessing.py` — step-function execution
  name: timestamp + random id + `_` + sanitised key, truncated to 80
  characters.

Python's `re` engine is modelled by an executable backtracking matcher
over the regex fragment actually exercised here: literal characters,
`.`, escapes (`\w`, `\d`, `\s` and their negations, escaped punctuation),
character classes `[...]` with optional `^` and ranges, and the postfix
quantifiers `*`, `+`, `?`.  Anchors, groups and alternation are not part
of the fragment; a syntactically malformed pattern simply fails to match
(Python would raise `re.error` at compile time instead).  Strings are
treated as their character lists; over the ASCII keys used by the data
lake this agrees with Python's unicode semantics.

External effects (S3, DynamoDB, SNS, step functions, the `dateutil`
date parser and `strftime`, `random.choice`, `datetime.now`) are inputs
of the embedded functions: the formatted partition string, the timestamp
and the random id are parameters rather than I/O.
-/

/-! ## A backtracking matcher for the Python regex fragment -/

/-- Word character for `\w`, i.e. `[a-zA-Z0-9_]` (ASCII reading). -/
def isWordChar (c : Char) : Bool :=
  c.isAlpha || c.isDigit || c = '_'

/-- Character matched by the escape `\x` in a pattern: the predefined
classes `\w`, `\d`, `\s` (and negations), any other escaped character
stands for itself. -/
def escClass (e : Char) : Char → Bool :=
  if e = 'w' then isWordChar
  else if e = 'W' then fun c => !isWordChar c
  else if e = 'd' then Char.isDigit
  else if e = 'D' then fun c => !c.isDigit
  else if e = 's' then Char.isWhitespace
  else if e = 'S' then fun c => !c.isWhitespace
  else fun c => c = e

/-- Parse the items of a character class after `[` (and after an optional
`^`), up to the closing `]`.  Returns the predicate of the disjunction of
the items and the rest of the pattern, or `none` if the class is
unterminated. -/
def parseClassItems : List Char → Option ((Char → Bool) × List Char)
  | [] => none
  | ']' :: rest => some (fun _ => false, rest)
  | '\\' :: e :: rest =>
    match parseClassItems rest with
    | none => none
    | some (p, rest') => some (fun c => escClass e c || p c, rest')
  | a :: '-' :: ']' :: rest => some (fun c => c = a || c = '-', rest)
  | a :: '-' :: b :: rest =>
    match parseClassItems rest with
    | none => none
    | some (p, rest') => some (fun c => (a ≤ c && c ≤ b) || p c, rest')
  | a :: rest =>
    match parseClassItems rest with
    | none => none
    | some (p, rest') => some (fun c => c = a || p c, rest')

/-- Parse one atom at the head of a pattern: an escape, a character
class, `.` (any character but a newline), or a literal character.
Returns the atom's character predicate and the rest of the pattern. -/
def nextAtom : List Char → Option ((Char → Bool) × List Char)
  | [] => none
  | '\\' :: [] => none
  | '\\' :: e :: rest => some (escClass e, rest)
  | '[' :: '^' :: rest =>
    match parseClassItems rest with
    | none => none
    | some (p, rest') => some (fun c => !p c, rest')
  | '[' :: rest =>
    match parseClassItems rest with
    | none => none
    | some (p, rest') => some (p, rest')
  | '.' :: rest => some (fun c => c ≠ '\n', rest)
  | c :: rest => some (fun x => x = c, rest)

/-- One step of the backtracking full matcher.  `fuel` dominates
`pattern.length + s.length`, which strictly decreases on every recursive
call, so any fuel above that bound computes the true match result. -/
def reMatchFuel : Nat → List Char → List Char → Bool
  | 0, _, _ => false
  | fuel + 1, p, s =>
    match nextAtom p with
    | none => p.isEmpty && s.isEmpty
    | some (cls, rest) =>
      match rest with
      | '*' :: rest' =>
        reMatchFuel fuel rest' s ||
          (match s with
           | [] => false
           | c :: s' => cls c && reMatchFuel fuel p s')
      | '+' :: rest' =>
        (match s with
         | [] => false
         | c :: s' =>
           cls c && reMatchFuel fuel (p.take (p.length - rest.length) ++ '*' :: rest') s')
      | '?' :: rest' =>
        reMatchFuel fuel rest' s ||
          (match s with
           | [] => false
           | c :: s' => cls c && reMatchFuel fuel rest' s')
      | _ =>
        match s with
        | [] => false
        | c :: s' => cls c && reMatchFuel fuel rest s'

/-- Model of `re.fullmatch(pattern, key) is not None`: the whole key must
be matched by the whole pattern. -/
def reFullmatch (pattern key : String) : Bool :=
  reMatchFuel (pattern.data.length + key.data.length + 1) pattern.data key.data

/-! ## Model of `getFileType.py` -/

/-- One configured data source, projected to the two fields the file-type
resolution reads: `fileType` and `fileSettings.fileNamePattern`. -/
structure DataSource where
  fileType : String
  fileNamePattern : String
deriving DecidableEq, Repr

/-- The distinct `GetFileTypeException` messages raised by
`getFileType.py`, carried as data.  `ambiguousMatch` keeps the two
formatted values as options because the Python locals start as `None`. -/
inductive GetFileTypeError where
  | noMatch (key : String)
  | inconsistentDepths
  | noWildcards (fileType : String)
  | ambiguousMatch (count : Option Nat) (depth : Option Nat)
deriving DecidableEq, Repr

/-- Python `str.split('/')`: accumulate the current segment (reversed)
and cut at every separator, keeping empty segments. -/
def splitSlashAux : List Char → List Char → List (List Char)
  | acc, [] => [acc.reverse]
  | acc, c :: cs =>
    if c = '/' then acc.reverse :: splitSlashAux [] cs
    else splitSlashAux (c :: acc) cs

/-- The `/`-separated segments of a pattern, as in
`fileNamePattern.split('/')`. -/
def patternSegments (pattern : String) : List (List Char) :=
  splitSlashAux [] pattern.data

/-- Character of the literal-safe set of
`re.fullmatch(r"^[a-zA-Z0-9-_.*'()+]+$", folder)`: the ranges a-z, A-Z,
0-9 and the literals of the class. -/
def safeChar (c : Char) : Bool :=
  c.isAlpha || c.isDigit || c = '-' || c = '_' || c = '.' || c = '*' ||
    c = '\'' || c = '(' || c = ')' || c = '+'

/-- A segment counts as a wildcard segment exactly when the safe-set
full match fails: it is empty or contains a character outside the safe
set. -/
def isWildcardSegment (seg : List Char) : Bool :=
  seg.isEmpty || !seg.all safeChar

/-- Zero-based index of the first wildcard segment of a split pattern,
if any. -/
def firstWildcardIdx (folders : List (List Char)) : Option Nat :=
  folders.findIdx? isWildcardSegment

/-- The same index computed from the un-split pattern. -/
def firstWildcardDepthOfPattern (pattern : String) : Option Nat :=
  firstWildcardIdx (patternSegments pattern)

/-- `_get_first_wildcard_depth`: the loop over `range(len(folders))`
breaking at the first segment whose safe-set full match fails; raises
when every segment is literal. -/
def get_first_wildcard_depth (folders : List (List Char)) (fileType : String) :
    Except GetFileTypeError Nat :=
  match firstWildcardIdx folders with
  | some depth => .ok depth
  | none => .error (.noWildcards fileType)

/-- Second half of one iteration of the `_get_most_specific_filetype`
loop, after the folder-depth consistency check: compute the first
wildcard depth of this data source and update the deepest-wildcard state
`(deepest_wildcard, deepest_wildcard_count, deepest_wildcard_filetype)`
exactly as the if/elif chain does. -/
def ms_step_wild (d : Nat) (st : Option (Nat × Nat × Option String))
    (ds : DataSource) (folders : List (List Char)) :
    Except GetFileTypeError (Nat × (Nat × Nat × Option String)) :=
  match get_first_wildcard_depth folders ds.fileType with
  | .error e => .error e
  | .ok w =>
    .ok (d,
      match st with
      | none => (w, 1, some ds.fileType)
      | some (dw, cnt, ft) =>
        if w > dw then (w, 1, some ds.fileType)
        else if w = dw then (dw, cnt + 1, none)
        else (dw, cnt, ft))

/-- One iteration of the `_get_most_specific_filetype` loop: split the
pattern, install or check `deepest_folder_depth`, then update the
deepest-wildcard state.  On success both parts of the state are set. -/
def ms_step (dfd : Option Nat) (st : Option (Nat × Nat × Option String))
    (ds : DataSource) :
    Except GetFileTypeError (Nat × (Nat × Nat × Option String)) :=
  let folders := patternSegments ds.fileNamePattern
  let folderDepth := folders.length
  match dfd with
  | none => ms_step_wild folderDepth st ds folders
  | some d =>
    if folderDepth ≠ d then .error .inconsistentDepths
    else ms_step_wild d st ds folders

/-- The loop of `_get_most_specific_filetype` over the matching data
sources, followed by the return/raise after the loop.  `dfd` is
`deepest_folder_depth`; `st` bundles `deepest_wildcard`,
`deepest_wildcard_count` and `deepest_wildcard_filetype`, which the
Python code always assigns together. -/
def ms_loop (dfd : Option Nat) (st : Option (Nat × Nat × Option String)) :
    List DataSource → Except GetFileTypeError (Option String)
  | [] =>
    match st with
    | some (dw, cnt, ft) =>
      if cnt = 1 then .ok ft
      else .error (.ambiguousMatch (some cnt) (some dw))
    | none => .error (.ambiguousMatch none none)
  | ds :: rest =>
    match ms_step dfd st ds with
    | .error e => .error e
    | .ok (d', st') => ms_loop (some d') (some st') rest

/-- `_get_most_specific_filetype`: no match raises, a single match is
returned directly, otherwise the loop decides. -/
def get_most_specific_filetype (key : String) (matching : List DataSource) :
    Except GetFileTypeError (Option String) :=
  match matching with
  | [] => .error (.noMatch key)
  | [ds] => .ok (some ds.fileType)
  | d1 :: d2 :: rest => ms_loop none none (d1 :: d2 :: rest)

/-- `_filter_matching_data_sources`: keep the data sources whose
`fileNamePattern` fully matches the key. -/
def filter_matching_data_sources (key : String) (dataSources : List DataSource) :
    List DataSource :=
  dataSources.filter fun ds => reFullmatch ds.fileNamePattern key

/-- The core of `get_file_type`: filter the configured data sources by
full match, then select the most specific file type. -/
def resolveType (key : String) (dataSources : List DataSource) :
    Except GetFileTypeError (Option String) :=
  get_most_specific_filetype key (filter_matching_data_sources key dataSources)

/-- Whether an error is one of the two configuration defects (a matching
pattern without wildcard segments, or inconsistent folder depths). -/
def isConfigError : GetFileTypeError → Bool
  | .inconsistentDepths => true
  | .noWildcards _ => true
  | _ => false

instance {ε α : Type} [DecidableEq ε] [DecidableEq α] : DecidableEq (Except ε α) :=
  fun x y =>
    match x, y with
    | .ok a, .ok b =>
      if h : a = b then .isTrue (by rw [h]) else
        .isFalse (fun hc => h (Except.ok.inj hc))
    | .ok _, .error _ => .isFalse (fun hc => Except.noConfusion hc)
    | .error _, .ok _ => .isFalse (fun hc => Except.noConfusion hc)
    | .error e, .error f =>
      if h : e = f then .isTrue (by rw [h]) else
        .isFalse (fun hc => h (Except.error.inj hc))

/-! ## Specification-side views of the resolution algorithm -/

/-- First wildcard depth of a data source, defaulting to `0`; meaningful
whenever the pattern has a wildcard segment. -/
def wdN (ds : DataSource) : Nat :=
  (firstWildcardDepthOfPattern ds.fileNamePattern).getD 0

/-- Total number of `/`-separated segments of a data source's pattern
(the folder depth of `_get_most_specific_filetype`). -/
def segCount (ds : DataSource) : Nat :=
  (patternSegments ds.fileNamePattern).length

/-- Greatest first-wildcard depth among a list of data sources. -/
def maxWd : List DataSource → Nat
  | [] => 0
  | d :: l => max (wdN d) (maxWd l)

/-- The data sources attaining the greatest first-wildcard depth. -/
def winners (l : List DataSource) : List DataSource :=
  l.filter fun ds => wdN ds == maxWd l

/-- The file type of the unique deepest-wildcard data source, when it is
unique. -/
def uniqueWinnerType (l : List DataSource) : Option String :=
  match winners l with
  | [b] => some b.fileType
  | _ => none

lemma resolveType_singleton (key : String) (dataSources : List DataSource)
    (ds : DataSource)
    (h : filter_matching_data_sources key dataSources = [ds]) :
    resolveType key dataSources = .ok (some ds.fileType) := by
  simp [resolveType, h, get_most_specific_filetype]

/-- C6: if no configured pattern fully matches the key, resolution fails
with the no-match error carrying the key. -/
theorem c6_zero_matches_no_match (key : String) (dataSources : List DataSource)
    (h : ∀ ds ∈ dataSources, reFullmatch ds.fileNamePattern key = false) :
    resolveType key dataSources = .error (.noMatch key) := by
  have hf : filter_matching_data_sources key dataSources = [] := by
    unfold filter_matching_data_sources
    rw [List.filter_eq_nil_iff]
    intro ds hds
    simp [h ds hds]
  simp [resolveType, hf, get_most_specific_filetype]

theorem c6_zero_matches_no_match_witness :
    resolveType "xyz" [⟨"t", "abc"⟩] =
      .error (.noMatch "xyz") :=
  c6_zero_matches_no_match "xyz" [⟨"t", "abc"⟩] (by decide)

/-- C8: if exactly one rule's pattern fully matches the key, resolution
returns that rule's file type. -/
theorem c8_single_match_returns_type (key : String)
    (dataSources : List DataSource) (ds : DataSource)
    (h : filter_matching_data_sources key dataSources = [ds]) :
    resolveType key dataSources = .ok (some ds.fileType) :=
  resolveType_singleton key dataSources ds h

theorem c8_single_match_returns_type_witness :
    resolveType "abc" [⟨"t1", "abc"⟩, ⟨"t2", "xyz"⟩] = .ok (some "t1") :=
  c8_single_match_returns_type "abc" [⟨"t1", "abc"⟩, ⟨"t2", "xyz"⟩]
    ⟨"t1", "abc"⟩ (by decide)

/-- C9: with exactly one matching rule, resolution returns its file type
directly, with no configuration validation: even a matching pattern
without any wildcard segment raises no error. -/
theorem c9_single_match_skips_validation (key : String)
    (dataSources : List DataSource) (ds : DataSource)
    (h : filter_matching_data_sources key dataSources = [ds])
    (_hnw : firstWildcardDepthOfPattern ds.fileNamePattern = none) :
    resolveType key dataSources = .ok (some ds.fileType) ∧
      ∀ e, resolveType key dataSources ≠ .error e := by
  refine ⟨resolveType_singleton key dataSources ds h, fun e hc => ?_⟩
  rw [resolveType_singleton key dataSources ds h] at hc
  exact Except.noConfusion hc

theorem c9_single_match_skips_validation_witness :
    resolveType "a/q" [⟨"t", "a/q"⟩] = .ok (some "t") ∧
      ∀ e, resolveType "a/q" [⟨"t", "a/q"⟩] ≠ .error e :=
  c9_single_match_skips_validation "a/q" [⟨"t", "a/q"⟩] ⟨"t", "a/q"⟩
    (by decide) (by decide)

/-- C2, counterexample: under Python regex semantics the pattern
`fixed/*/x` is `fixed`, zero or more `/`, then `/x`; it does not match
`fixed/y/x`, and neither does `fixed/y/*`, so resolution reports
no match instead of returning `B`'s type. -/
theorem c2_counterexample :
    reFullmatch "fixed/*/x" "fixed/y/x" = false ∧
    reFullmatch "fixed/y/*" "fixed/y/x" = false ∧
    resolveType "fixed/y/x" [⟨"A", "fixed/*/x"⟩, ⟨"B", "fixed/y/*"⟩] =
      .error (.noMatch "fixed/y/x") :=
  ⟨by decide, by decide, by decide⟩

/-- C2, amended: with genuine regex wildcard segments, `A: fixed/\w*/x`
(first wildcard depth 1) and `B: fixed/y/\w*` (first wildcard depth 2)
both fully match `fixed/y/x`, and resolution returns `B`'s type: the
deeper wildcard wins. -/
theorem c2_amended_deeper_wildcard_wins :
    reFullmatch "fixed/\\w*/x" "fixed/y/x" = true ∧
    reFullmatch "fixed/y/\\w*" "fixed/y/x" = true ∧
    firstWildcardDepthOfPattern "fixed/\\w*/x" = some 1 ∧
    firstWildcardDepthOfPattern "fixed/y/\\w*" = some 2 ∧
    resolveType "fixed/y/x" [⟨"A", "fixed/\\w*/x"⟩, ⟨"B", "fixed/y/\\w*"⟩] =
      .ok (some "B") :=
  ⟨by decide, by decide, by decide, by decide, by decide⟩

lemma wdN_le_maxWd {l : List DataSource} {r : DataSource} (h : r ∈ l) :
    wdN r ≤ maxWd l := by
  induction l with
  | nil => cases h
  | cons d t ih =>
    rcases List.mem_cons.mp h with rfl | h'
    · simp only [maxWd]; exact Nat.le_max_left _ _
    · simp only [maxWd]; exact Nat.le_trans (ih h') (Nat.le_max_right _ _)

lemma maxWd_le {l : List DataSource} {k : Nat} (h : ∀ r ∈ l, wdN r ≤ k) :
    maxWd l ≤ k := by
  induction l with
  | nil => exact Nat.zero_le k
  | cons d t ih =>
    simp only [maxWd]
    exact Nat.max_le.mpr ⟨h d (by simp), ih fun r hr => h r (by simp [hr])⟩

lemma maxWd_append (l : List DataSource) (d : DataSource) :
    maxWd (l ++ [d]) = max (maxWd l) (wdN d) := by
  induction l with
  | nil => simp [maxWd, Nat.max_comm]
  | cons a t ih =>
    rw [List.cons_append]
    simp only [maxWd]
    rw [ih, Nat.max_assoc]

lemma maxWd_attained {l : List DataSource} (h : l ≠ []) :
    ∃ r ∈ l, wdN r = maxWd l := by
  induction l with
  | nil => exact absurd rfl h
  | cons d t ih =>
    cases t with
    | nil => exact ⟨d, by simp, by simp [maxWd]⟩
    | cons e t' =>
      have hun : maxWd (d :: e :: t') = max (wdN d) (maxWd (e :: t')) := rfl
      rcases Nat.le_total (wdN d) (maxWd (e :: t')) with hm | hm
      · obtain ⟨r, hr, hw⟩ := ih (by simp)
        refine ⟨r, by simp [hr], ?_⟩
        rw [hun, Nat.max_eq_right hm]
        exact hw
      · refine ⟨d, by simp, ?_⟩
        rw [hun, Nat.max_eq_left hm]

lemma winners_ne_nil {l : List DataSource} (h : l ≠ []) : winners l ≠ [] := by
  obtain ⟨r, hr, hw⟩ := maxWd_attained h
  have hmem : r ∈ winners l := List.mem_filter.mpr ⟨hr, by simp [hw]⟩
  intro hc
  rw [hc] at hmem
  exact List.not_mem_nil r hmem

lemma winners_append_gt {l : List DataSource} {d : DataSource}
    (h : maxWd l < wdN d) : winners (l ++ [d]) = [d] := by
  unfold winners
  rw [maxWd_append, Nat.max_eq_right (Nat.le_of_lt h), List.filter_append]
  have h1 : l.filter (fun ds => wdN ds == wdN d) = [] := by
    rw [List.filter_eq_nil_iff]
    intro r hr
    have := wdN_le_maxWd hr
    simp only [beq_iff_eq]
    omega
  simp [h1]

lemma winners_append_eq {l : List DataSource} {d : DataSource}
    (h : wdN d = maxWd l) : winners (l ++ [d]) = winners l ++ [d] := by
  unfold winners
  rw [maxWd_append, h, Nat.max_self, List.filter_append]
  simp [h]

lemma winners_append_lt {l : List DataSource} {d : DataSource}
    (h : wdN d < maxWd l) : winners (l ++ [d]) = winners l := by
  unfold winners
  rw [maxWd_append, Nat.max_eq_left (Nat.le_of_lt h), List.filter_append]
  have h1 : [d].filter (fun ds => wdN ds == maxWd l) = [] := by
    simp only [List.filter_eq_nil_iff, List.mem_singleton, beq_iff_eq]
    intro r hr
    subst hr
    omega
  simp [h1]

lemma uniqueWinnerType_of_two {l : List DataSource}
    (h : 2 ≤ (winners l).length) : uniqueWinnerType l = none := by
  cases hw : winners l with
  | nil => simp [uniqueWinnerType, hw]
  | cons a t =>
    cases t with
    | nil => rw [hw] at h; simp at h
    | cons b t' => simp [uniqueWinnerType, hw]

lemma winners_singleton_of_strict_max {l : List DataSource} {b : DataSource}
    (hn : l.Nodup) (hb : b ∈ l)
    (hmax : ∀ r ∈ l, r ≠ b → wdN r < wdN b) : winners l = [b] := by
  have hM : maxWd l = wdN b := by
    refine Nat.le_antisymm (maxWd_le fun r hr => ?_) (wdN_le_maxWd hb)
    by_cases hrb : r = b
    · subst hrb; exact Nat.le_refl _
    · exact Nat.le_of_lt (hmax r hr hrb)
  unfold winners
  rw [hM]
  clear hM
  induction l with
  | nil => cases hb
  | cons a t ih =>
    by_cases hab : a = b
    · subst hab
      have hat : a ∉ t := (List.nodup_cons.mp hn).1
      have ht : t.filter (fun ds => wdN ds == wdN a) = [] := by
        rw [List.filter_eq_nil_iff]
        intro r hr
        have hra : r ≠ a := fun he => hat (he ▸ hr)
        have := hmax r (List.mem_cons_of_mem a hr) hra
        simp only [beq_iff_eq]
        omega
      rw [List.filter_cons_of_pos (by simp)]
      rw [ht]
    · have hbt : b ∈ t := by
        rcases List.mem_cons.mp hb with he | h
        · exact absurd he.symm hab
        · exact h
      have hwa := hmax a (by simp) hab
      rw [List.filter_cons_of_neg (by simp only [beq_iff_eq]; omega)]
      exact ih (List.nodup_cons.mp hn).2 hbt
        (fun r hr hrb => hmax r (List.mem_cons_of_mem a hr) hrb)

lemma ms_step_ok_of_good {D w : Nat} {d : DataSource}
    (st : Nat × Nat × Option String)
    (hseg : segCount d = D)
    (hw : firstWildcardIdx (patternSegments d.fileNamePattern) = some w) :
    ms_step (some D) (some st) d =
      .ok (D, if st.1 < w then (w, 1, some d.fileType)
              else if w = st.1 then (st.1, st.2.1 + 1, none)
              else st) := by
  obtain ⟨dw, cnt, ft⟩ := st
  simp only [ms_step, ms_step_wild, get_first_wildcard_depth, hw]
  rw [show (patternSegments d.fileNamePattern).length = D from hseg]
  simp [Nat.lt_iff_add_one_le, gt_iff_lt]

lemma ms_step_none_of_good {w : Nat} {d : DataSource}
    (hw : firstWildcardIdx (patternSegments d.fileNamePattern) = some w) :
    ms_step none none d = .ok (segCount d, (w, 1, some d.fileType)) := by
  simp [ms_step, ms_step_wild, get_first_wildcard_depth, hw, segCount]

lemma ms_loop_invariant :
    ∀ (rest seen : List DataSource) (D : Nat), seen ≠ [] →
    (∀ r ∈ seen ++ rest, segCount r = D) →
    (∀ r ∈ seen ++ rest, (firstWildcardDepthOfPattern r.fileNamePattern).isSome = true) →
    ms_loop (some D)
        (some (maxWd seen, (winners seen).length, uniqueWinnerType seen)) rest =
      if (winners (seen ++ rest)).length = 1 then
        Except.ok (uniqueWinnerType (seen ++ rest))
      else
        Except.error (.ambiguousMatch (some ((winners (seen ++ rest)).length))
          (some (maxWd (seen ++ rest)))) := by
  intro rest
  induction rest with
  | nil =>
    intro seen D _ _ _
    simp [ms_loop]
  | cons d rest' ih =>
    intro seen D hne hseg hwild
    have hd_seg : segCount d = D := hseg d (by simp)
    have hd_w : (firstWildcardDepthOfPattern d.fileNamePattern).isSome = true :=
      hwild d (by simp)
    obtain ⟨w, hw⟩ : ∃ w, firstWildcardIdx (patternSegments d.fileNamePattern) = some w := by
      cases hfw : firstWildcardDepthOfPattern d.fileNamePattern with
      | none => rw [hfw] at hd_w; simp at hd_w
      | some w => exact ⟨w, hfw⟩
    have hwdN : wdN d = w := by
      simp [wdN, firstWildcardDepthOfPattern, hw]
    have hassoc : (seen ++ [d]) ++ rest' = seen ++ d :: rest' := by simp
    have happly : ∀ st : Nat × Nat × Option String,
        ms_loop (some D) (some st) (d :: rest') =
          match ms_step (some D) (some st) d with
          | .error e => .error e
          | .ok (d', st') => ms_loop (some d') (some st') rest' := fun st => rfl
    rw [happly, ms_step_ok_of_good _ hd_seg hw]
    have hseen' : ∀ r ∈ (seen ++ [d]) ++ rest', segCount r = D := by
      rw [hassoc]; exact hseg
    have hwild' : ∀ r ∈ (seen ++ [d]) ++ rest',
        (firstWildcardDepthOfPattern r.fileNamePattern).isSome = true := by
      rw [hassoc]; exact hwild
    have hih := ih (seen ++ [d]) D (by simp) hseen' hwild'
    rcases Nat.lt_trichotomy (maxWd seen) w with hlt | heq | hgt
    · have h1 : maxWd (seen ++ [d]) = w := by
        rw [maxWd_append, hwdN]; omega
      have h2 : winners (seen ++ [d]) = [d] := winners_append_gt (by omega)
      have h3 : uniqueWinnerType (seen ++ [d]) = some d.fileType := by
        simp [uniqueWinnerType, h2]
      rw [if_pos hlt]
      rw [hassoc] at hih
      rw [show ((w : Nat), (1 : Nat), some d.fileType) =
          (maxWd (seen ++ [d]), (winners (seen ++ [d])).length,
            uniqueWinnerType (seen ++ [d])) from by rw [h1, h2, h3]; rfl]
      exact hih
    · have h1 : maxWd (seen ++ [d]) = maxWd seen := by
        rw [maxWd_append, hwdN]; omega
      have h2 : winners (seen ++ [d]) = winners seen ++ [d] :=
        winners_append_eq (by omega)
      have hc1 : 1 ≤ (winners seen).length :=
        List.length_pos.mpr (winners_ne_nil hne)
      have h3 : uniqueWinnerType (seen ++ [d]) = none := by
        apply uniqueWinnerType_of_two
        rw [h2]
        simp only [List.length_append, List.length_singleton]
        omega
      rw [if_neg (by omega), if_pos (by omega)]
      rw [hassoc] at hih
      rw [show ((maxWd seen : Nat), (winners seen).length + 1, (none : Option String)) =
          (maxWd (seen ++ [d]), (winners (seen ++ [d])).length,
            uniqueWinnerType (seen ++ [d])) from by
        rw [h1, h2, h3]; simp]
      exact hih
    · have h1 : maxWd (seen ++ [d]) = maxWd seen := by
        rw [maxWd_append, hwdN]; omega
      have h2 : winners (seen ++ [d]) = winners seen :=
        winners_append_lt (by omega)
      have h3 : uniqueWinnerType (seen ++ [d]) = uniqueWinnerType seen := by
        unfold uniqueWinnerType
        rw [h2]
      rw [if_neg (by omega), if_neg (by omega)]
      rw [hassoc] at hih
      rw [show ((maxWd seen : Nat), (winners seen).length, uniqueWinnerType seen) =
          (maxWd (seen ++ [d]), (winners (seen ++ [d])).length,
            uniqueWinnerType (seen ++ [d])) from by rw [h1, h2, h3]]
      exact hih

lemma singleton_winner_state (d : DataSource) :
    maxWd [d] = wdN d ∧ winners [d] = [d] ∧
      uniqueWinnerType [d] = some d.fileType := by
  have h1 : maxWd [d] = wdN d := by simp [maxWd]
  have h2 : winners [d] = [d] := by simp [winners, h1]
  exact ⟨h1, h2, by simp [uniqueWinnerType, h2]⟩

lemma ms_run_eq_finalize (d1 d2 : DataSource) (rest : List DataSource)
    (hseg : ∀ r ∈ d1 :: d2 :: rest, segCount r = segCount d1)
    (hwild : ∀ r ∈ d1 :: d2 :: rest,
      (firstWildcardDepthOfPattern r.fileNamePattern).isSome = true) :
    ms_loop none none (d1 :: d2 :: rest) =
      if (winners (d1 :: d2 :: rest)).length = 1 then
        Except.ok (uniqueWinnerType (d1 :: d2 :: rest))
      else
        Except.error (.ambiguousMatch
          (some ((winners (d1 :: d2 :: rest)).length))
          (some (maxWd (d1 :: d2 :: rest)))) := by
  have hd_w : (firstWildcardDepthOfPattern d1.fileNamePattern).isSome = true :=
    hwild d1 (by simp)
  obtain ⟨w, hw⟩ : ∃ w, firstWildcardIdx (patternSegments d1.fileNamePattern) = some w := by
    cases hfw : firstWildcardDepthOfPattern d1.fileNamePattern with
    | none => rw [hfw] at hd_w; simp at hd_w
    | some w => exact ⟨w, hfw⟩
  have hwdN : wdN d1 = w := by
    simp [wdN, firstWildcardDepthOfPattern, hw]
  have hstep : ms_loop none none (d1 :: d2 :: rest) =
      ms_loop (some (segCount d1)) (some (w, 1, some d1.fileType)) (d2 :: rest) := by
    have : ms_loop none none (d1 :: d2 :: rest) =
        match ms_step none none d1 with
        | .error e => .error e
        | .ok (d', st') => ms_loop (some d') (some st') (d2 :: rest) := rfl
    rw [this, ms_step_none_of_good hw]
  obtain ⟨hs1, hs2, hs3⟩ := singleton_winner_state d1
  have hinv := ms_loop_invariant (d2 :: rest) [d1] (segCount d1) (by simp)
    (by simpa using hseg) (by simpa using hwild)
  rw [hs1, hs2, hs3] at hinv
  simp only [List.length_singleton] at hinv
  rw [hwdN] at hinv
  rw [← hstep] at hinv
  simpa using hinv

/-- C1: among two or more matching rules of equal segment count, each
with a wildcard segment, resolution returns the file type of the rule
whose first wildcard is strictly deepest; a tie at the maximum depth
fails with the ambiguous-match error carrying the tie count and the
depth. -/
theorem c1_deepest_wildcard_selection (key : String)
    (dataSources matched : List DataSource)
    (hm : filter_matching_data_sources key dataSources = matched)
    (hnodup : matched.Nodup) (hlen : 2 ≤ matched.length)
    (hseg : ∀ r ∈ matched, ∀ s ∈ matched, segCount r = segCount s)
    (hwild : ∀ r ∈ matched,
      (firstWildcardDepthOfPattern r.fileNamePattern).isSome = true) :
    (∀ b ∈ matched, (∀ r ∈ matched, r ≠ b → wdN r < wdN b) →
        resolveType key dataSources = .ok (some b.fileType)) ∧
    (2 ≤ (winners matched).length →
        resolveType key dataSources =
          .error (.ambiguousMatch (some ((winners matched).length))
            (some (maxWd matched)))) := by
  obtain ⟨d1, d2, rest, rfl⟩ :
      ∃ d1 d2 rest, matched = d1 :: d2 :: rest := by
    match matched, hlen with
    | d1 :: d2 :: rest, _ => exact ⟨d1, d2, rest, rfl⟩
  have hrun : resolveType key dataSources =
      if (winners (d1 :: d2 :: rest)).length = 1 then
        Except.ok (uniqueWinnerType (d1 :: d2 :: rest))
      else
        Except.error (.ambiguousMatch
          (some ((winners (d1 :: d2 :: rest)).length))
          (some (maxWd (d1 :: d2 :: rest)))) := by
    rw [show resolveType key dataSources =
        ms_loop none none (d1 :: d2 :: rest) from by
      simp [resolveType, hm, get_most_specific_filetype]]
    exact ms_run_eq_finalize d1 d2 rest
      (fun r hr => hseg r hr d1 (by simp)) hwild
  constructor
  · intro b hb hmax
    have hwin : winners (d1 :: d2 :: rest) = [b] :=
      winners_singleton_of_strict_max hnodup hb hmax
    rw [hrun, hwin]
    simp [uniqueWinnerType, hwin]
  · intro h2
    rw [hrun, if_neg (by omega)]

theorem c1_deepest_wildcard_selection_witness :
    resolveType "a/q" [⟨"t1", "[ab]/q"⟩, ⟨"t2", "a/[q]"⟩] = .ok (some "t2") :=
  (c1_deepest_wildcard_selection "a/q" [⟨"t1", "[ab]/q"⟩, ⟨"t2", "a/[q]"⟩]
      [⟨"t1", "[ab]/q"⟩, ⟨"t2", "a/[q]"⟩]
      (by decide) (by decide) (by decide) (by decide) (by decide)).1
    ⟨"t2", "a/[q]"⟩ (by decide) (by decide)

lemma ms_step_ok_any {D : Nat} {d : DataSource} {w : Nat}
    (st : Option (Nat × Nat × Option String))
    (hseg : segCount d = D)
    (hw : firstWildcardIdx (patternSegments d.fileNamePattern) = some w) :
    ∃ st', ms_step (some D) st d = .ok (D, st') := by
  cases st with
  | none =>
    refine ⟨(w, 1, some d.fileType), ?_⟩
    simp only [ms_step, ms_step_wild, get_first_wildcard_depth, hw]
    rw [show (patternSegments d.fileNamePattern).length = D from hseg]
    simp
  | some st0 =>
    exact ⟨_, ms_step_ok_of_good st0 hseg hw⟩

lemma ms_loop_config_of_violation {D : Nat} :
    ∀ (rest : List DataSource) (st : Option (Nat × Nat × Option String)),
    (∃ r ∈ rest, segCount r ≠ D ∨
        firstWildcardDepthOfPattern r.fileNamePattern = none) →
    ∃ e, ms_loop (some D) st rest = .error e ∧ isConfigError e = true := by
  intro rest
  induction rest with
  | nil =>
    rintro st ⟨r, hr, -⟩
    cases hr
  | cons d rest' ih =>
    rintro st ⟨r, hr, hv⟩
    by_cases hds : segCount d = D
    · cases hfw : firstWildcardIdx (patternSegments d.fileNamePattern) with
      | none =>
        refine ⟨.noWildcards d.fileType, ?_, rfl⟩
        have hstep : ms_step (some D) st d = .error (.noWildcards d.fileType) := by
          cases st with
          | none =>
            simp only [ms_step, ms_step_wild, get_first_wildcard_depth, hfw]
            rw [show (patternSegments d.fileNamePattern).length = D from hds]
            simp
          | some st0 =>
            simp only [ms_step, ms_step_wild, get_first_wildcard_depth, hfw]
            rw [show (patternSegments d.fileNamePattern).length = D from hds]
            simp
        show (match ms_step (some D) st d with
          | Except.error e => Except.error e
          | Except.ok (d', st') => ms_loop (some d') (some st') rest') =
            Except.error (.noWildcards d.fileType)
        rw [hstep]
      | some w =>
        have hr' : r ∈ rest' := by
          rcases List.mem_cons.mp hr with rfl | hr'
          · exfalso
            rcases hv with hv | hv
            · exact hv hds
            · rw [show firstWildcardDepthOfPattern r.fileNamePattern =
                firstWildcardIdx (patternSegments r.fileNamePattern) from rfl,
                hfw] at hv
              exact Option.noConfusion hv
          · exact hr'
        obtain ⟨st', hstep⟩ := ms_step_ok_any st hds hfw
        have hunf : ms_loop (some D) st (d :: rest') =
            ms_loop (some D) (some st') rest' := by
          show (match ms_step (some D) st d with
            | Except.error e => Except.error e
            | Except.ok (d', st') => ms_loop (some d') (some st') rest') = _
          rw [hstep]
        rw [hunf]
        exact ih (some st') ⟨r, hr', hv⟩
    · refine ⟨.inconsistentDepths, ?_, rfl⟩
      have hstep : ms_step (some D) st d = .error .inconsistentDepths := by
        simp [ms_step, hds, segCount] at hds ⊢
        simp [show ¬ (patternSegments d.fileNamePattern).length = D from hds]
      show (match ms_step (some D) st d with
        | Except.error e => Except.error e
        | Except.ok (d', st') => ms_loop (some d') (some st') rest') =
          Except.error GetFileTypeError.inconsistentDepths
      rw [hstep]

/-- C7: with two or more matching rules, resolution fails with one of
the two configuration errors (no wildcard segment in a matching pattern,
or inconsistent folder depths) exactly when some matching pattern has no
wildcard segment or the matching patterns disagree on their total
segment count. -/
theorem c7_config_error_iff (key : String) (dataSources : List DataSource)
    (d1 d2 : DataSource) (rest : List DataSource)
    (hm : filter_matching_data_sources key dataSources = d1 :: d2 :: rest) :
    (∃ e, resolveType key dataSources = .error e ∧ isConfigError e = true) ↔
      ((∃ r ∈ d1 :: d2 :: rest,
          firstWildcardDepthOfPattern r.fileNamePattern = none) ∨
       (∃ r ∈ d1 :: d2 :: rest, segCount r ≠ segCount d1)) := by
  have hrt : resolveType key dataSources = ms_loop none none (d1 :: d2 :: rest) := by
    simp [resolveType, hm, get_most_specific_filetype]
  constructor
  · rintro ⟨e, he, hce⟩
    by_contra hnv
    push_neg at hnv
    obtain ⟨hnw, hnseg⟩ := hnv
    have hwild : ∀ r ∈ d1 :: d2 :: rest,
        (firstWildcardDepthOfPattern r.fileNamePattern).isSome = true := by
      intro r hr
      cases hfw : firstWildcardDepthOfPattern r.fileNamePattern with
      | none => exact absurd hfw (hnw r hr)
      | some w => rfl
    have hseg : ∀ r ∈ d1 :: d2 :: rest, segCount r = segCount d1 :=
      fun r hr => hnseg r hr
    rw [hrt, ms_run_eq_finalize d1 d2 rest hseg hwild] at he
    by_cases hone : (winners (d1 :: d2 :: rest)).length = 1
    · rw [if_pos hone] at he
      exact Except.noConfusion he
    · rw [if_neg hone] at he
      have : e = .ambiguousMatch (some ((winners (d1 :: d2 :: rest)).length))
          (some (maxWd (d1 :: d2 :: rest))) := (Except.error.inj he).symm
      rw [this] at hce
      exact Bool.noConfusion hce
  · intro hv
    rw [hrt]
    cases hfw1 : firstWildcardIdx (patternSegments d1.fileNamePattern) with
    | none =>
      refine ⟨.noWildcards d1.fileType, ?_, rfl⟩
      show (match ms_step none none d1 with
        | Except.error e => Except.error e
        | Except.ok (d', st') => ms_loop (some d') (some st') (d2 :: rest)) =
          Except.error (.noWildcards d1.fileType)
      simp [ms_step, ms_step_wild, get_first_wildcard_depth, hfw1]
    | some w =>
      have hstep : ms_loop none none (d1 :: d2 :: rest) =
          ms_loop (some (segCount d1)) (some (w, 1, some d1.fileType)) (d2 :: rest) := by
        show (match ms_step none none d1 with
          | Except.error e => Except.error e
          | Except.ok (d', st') => ms_loop (some d') (some st') (d2 :: rest)) = _
        rw [ms_step_none_of_good hfw1]
      rw [hstep]
      apply ms_loop_config_of_violation
      rcases hv with ⟨r, hr, hvr⟩ | ⟨r, hr, hvr⟩
      · rcases List.mem_cons.mp hr with rfl | hr'
        · exact absurd hvr (by
            rw [show firstWildcardDepthOfPattern r.fileNamePattern =
              firstWildcardIdx (patternSegments r.fileNamePattern) from rfl, hfw1]
            exact fun hc => Option.noConfusion hc)
        · exact ⟨r, hr', Or.inr hvr⟩
      · rcases List.mem_cons.mp hr with rfl | hr'
        · exact absurd hvr (by simp)
        · exact ⟨r, hr', Or.inl hvr⟩

theorem c7_config_error_iff_witness :
    ∃ e, resolveType "a/q" [⟨"t1", "[ab]/q"⟩, ⟨"t2", "a/q"⟩] = .error e ∧
      isConfigError e = true :=
  (c7_config_error_iff "a/q" [⟨"t1", "[ab]/q"⟩, ⟨"t2", "a/q"⟩]
      ⟨"t1", "[ab]/q"⟩ ⟨"t2", "a/q"⟩ [] (by decide)).mpr
    (Or.inl ⟨⟨"t2", "a/q"⟩, by simp, by decide⟩)

/-! ## Model of `copyFileFromRawToStaging.py` -/

/-- Python `str.replace('//', '/')`: one left-to-right pass replacing
non-overlapping occurrences of a doubled slash by a single one. -/
def pyReplaceDS : List Char → List Char
  | [] => []
  | [c] => [c]
  | c :: d :: rest =>
    if c = '/' ∧ d = '/' then '/' :: pyReplaceDS rest
    else c :: pyReplaceDS (d :: rest)

/-- String form of the doubled-slash collapse. -/
def pyCollapseSlashes (s : String) : String :=
  ⟨pyReplaceDS s.data⟩

/-- Whether a character list contains two consecutive slashes. -/
def hasDoubleSlash : List Char → Bool
  | c :: d :: rest => (c = '/' && d = '/') || hasDoubleSlash (d :: rest)
  | _ => false

/-- Whether a character list contains three consecutive slashes. -/
def hasTripleSlash : List Char → Bool
  | c :: d :: e :: rest => (c = '/' && d = '/' && e = '/') || hasTripleSlash (d :: e :: rest)
  | _ => false

/-- Identifier character of the date-partition regex
`/[A-Za-z0-9_]*=[0-9]+`. -/
def partitionIdChar (c : Char) : Bool :=
  c.isAlpha || c.isDigit || c = '_'

/-- Attempt to match `[A-Za-z0-9_]*=[0-9]+` greedily at the start of
`cs` (the characters following a `/`); on success return the remainder
after the match. -/
def tryPartitionMatch (cs : List Char) : Option (List Char) :=
  match cs.dropWhile partitionIdChar with
  | [] => none
  | d :: r2 =>
    if d = '=' then
      match r2.takeWhile Char.isDigit with
      | [] => none
      | _ :: _ => some (r2.dropWhile Char.isDigit)
    else none

/-- One pass of `re.sub('/[A-Za-z0-9_]*=[0-9]+', '', key)`: scan left to
right, at each `/` try the partition pattern and skip the matched
region, otherwise emit the character.  `fuel` dominates the input
length, which strictly decreases on every recursive call. -/
def removeDTFuel : Nat → List Char → List Char
  | 0, s => s
  | _ + 1, [] => []
  | fuel + 1, c :: cs =>
    if c = '/' then
      match tryPartitionMatch cs with
      | some rest => removeDTFuel fuel rest
      | none => c :: removeDTFuel fuel cs
    else c :: removeDTFuel fuel cs

/-- The scan with sufficient fuel. -/
def removeDT (s : List Char) : List Char :=
  removeDTFuel (s.length + 1) s

/-- `_remove_datetime_partitions_from_key`. -/
def remove_datetime_partitions_from_key (key : String) : String :=
  ⟨removeDT key.data⟩

/-- `_get_folder_path_from_key`: `key[:key.rfind('/') + 1]`, or the
empty string when the key holds no `/`. -/
def get_folder_path_from_key (key : String) : String :=
  if (key.data.reverse.takeWhile fun c => !(c == '/')).length =
      key.data.reverse.length
  then ""
  else
    ⟨(key.data.reverse.drop
        (key.data.reverse.takeWhile fun c => !(c == '/')).length).reverse⟩

/-- The base folder of `_get_staging_key`: the `stagingFolderPath` file
setting when present, else the folder portion of the raw key. -/
def staging_base (rawKey : String) (stagingFolderPath : Option String) : String :=
  match stagingFolderPath with
  | some p => p
  | none => get_folder_path_from_key rawKey

/-- The staging key before the doubled-slash collapse.
`partitionFormatted` stands for the `strftime` rendering of the created
date in the configured timezone with the configured expression, treated
as an input because the date formatting is external library
behaviour. -/
def preCollapseKey (rawKey rawFileName : String)
    (stagingFolderPath partitionFormatted : Option String) : String :=
  let sk := staging_base rawKey stagingFolderPath
  let sk :=
    match partitionFormatted with
    | some fmt => remove_datetime_partitions_from_key sk ++ "/" ++ fmt
    | none => sk
  sk ++ "/" ++ rawFileName

/-- `_get_staging_key`: base folder, optional partition stripping and
re-appending, filename, then the single-pass doubled-slash collapse. -/
def get_staging_key (rawKey rawFileName : String)
    (stagingFolderPath partitionFormatted : Option String) : String :=
  pyCollapseSlashes
    (preCollapseKey rawKey rawFileName stagingFolderPath partitionFormatted)

lemma pyReplaceDS_head (c : Char) (l : List Char) :
    ∃ l', pyReplaceDS (c :: l) = c :: l' := by
  cases l with
  | nil => exact ⟨[], rfl⟩
  | cons d rest =>
    by_cases h : c = '/' ∧ d = '/'
    · obtain ⟨hc, hd⟩ := h
      subst hc; subst hd
      exact ⟨pyReplaceDS rest, by simp [pyReplaceDS]⟩
    · exact ⟨pyReplaceDS (d :: rest), by simp [pyReplaceDS, h]⟩

lemma hasTripleSlash_tail {c : Char} {l : List Char}
    (h : hasTripleSlash (c :: l) = false) : hasTripleSlash l = false := by
  cases l with
  | nil => rfl
  | cons d rest =>
    cases rest with
    | nil => rfl
    | cons e rest' =>
      simp only [hasTripleSlash, Bool.or_eq_false_iff] at h
      exact h.2

lemma pyReplaceDS_no_double :
    ∀ s : List Char, hasTripleSlash s = false →
      hasDoubleSlash (pyReplaceDS s) = false
  | [], _ => rfl
  | [c], _ => rfl
  | c :: d :: rest, h => by
    by_cases hcd : c = '/' ∧ d = '/'
    · obtain ⟨hc, hd⟩ := hcd
      subst hc; subst hd
      have hr : hasTripleSlash rest = false :=
        hasTripleSlash_tail (hasTripleSlash_tail h)
      have hrec := pyReplaceDS_no_double rest hr
      rw [show pyReplaceDS ('/' :: '/' :: rest) = '/' :: pyReplaceDS rest from by
        simp [pyReplaceDS]]
      cases rest with
      | nil => rfl
      | cons e rest' =>
        have he : e ≠ '/' := by
          intro hcontr
          subst hcontr
          simp [hasTripleSlash] at h
        obtain ⟨l', hl'⟩ := pyReplaceDS_head e rest'
        rw [hl']
        rw [hl'] at hrec
        simp only [hasDoubleSlash, Bool.or_eq_false_iff]
        exact ⟨by simp [he], hrec⟩
    · have hr : hasTripleSlash (d :: rest) = false := hasTripleSlash_tail h
      have hrec := pyReplaceDS_no_double (d :: rest) hr
      rw [show pyReplaceDS (c :: d :: rest) = c :: pyReplaceDS (d :: rest) from by
        simp [pyReplaceDS, hcd]]
      obtain ⟨l', hl'⟩ := pyReplaceDS_head d rest
      rw [hl']
      rw [hl'] at hrec
      simp only [hasDoubleSlash, Bool.or_eq_false_iff]
      refine ⟨?_, hrec⟩
      by_cases hc : c = '/'
      · subst hc
        have hd : d ≠ '/' := fun hdd => hcd ⟨rfl, hdd⟩
        simp [hd]
      · simp [hc]

lemma pyReplaceDS_of_no_double :
    ∀ t : List Char, hasDoubleSlash t = false → pyReplaceDS t = t
  | [], _ => rfl
  | [c], _ => rfl
  | c :: d :: rest, h => by
    have hcd : ¬(c = '/' ∧ d = '/') := by
      rintro ⟨hc, hd⟩
      subst hc; subst hd
      simp [hasDoubleSlash] at h
    have hr : hasDoubleSlash (d :: rest) = false := by
      simp only [hasDoubleSlash, Bool.or_eq_false_iff] at h
      exact h.2
    rw [show pyReplaceDS (c :: d :: rest) = c :: pyReplaceDS (d :: rest) from by
      simp [pyReplaceDS, hcd]]
    rw [pyReplaceDS_of_no_double (d :: rest) hr]

/-- C3, counterexample: the doubled-slash collapse is a single
left-to-right pass, so a folder override ending in three slashes
produces a staging key that still contains a doubled slash, and
re-collapsing changes it. -/
theorem c3_counterexample :
    pyCollapseSlashes (get_staging_key "x" "f" (some "a///") none) ≠
        get_staging_key "x" "f" (some "a///") none ∧
      get_staging_key "x" "f" (some "a///") none = "a//f" := by
  refine ⟨?_, by decide⟩
  decide

/-- C3, amended: whenever the pre-collapse staging key contains no run
of three or more consecutive slashes — in particular for well-formed
configurations without doubled slashes of their own — the computed
staging key contains no doubled slash and re-running the collapse on it
returns it unchanged. -/
theorem c3_collapse_idempotent (rawKey rawFileName : String)
    (stagingFolderPath partitionFormatted : Option String)
    (h : hasTripleSlash
        (preCollapseKey rawKey rawFileName stagingFolderPath
          partitionFormatted).data = false) :
    pyCollapseSlashes
        (get_staging_key rawKey rawFileName stagingFolderPath partitionFormatted) =
      get_staging_key rawKey rawFileName stagingFolderPath partitionFormatted ∧
    hasDoubleSlash
        (get_staging_key rawKey rawFileName stagingFolderPath
          partitionFormatted).data = false := by
  have h2 : hasDoubleSlash
      (pyReplaceDS (preCollapseKey rawKey rawFileName stagingFolderPath
        partitionFormatted).data) = false :=
    pyReplaceDS_no_double _ h
  refine ⟨?_, h2⟩
  show pyCollapseSlashes (pyCollapseSlashes _) = _
  unfold pyCollapseSlashes
  exact congrArg String.mk (pyReplaceDS_of_no_double _ h2)

theorem c3_collapse_idempotent_witness :
    pyCollapseSlashes (get_staging_key "incoming/a/b.csv" "b.csv" none none) =
      get_staging_key "incoming/a/b.csv" "b.csv" none none ∧
    hasDoubleSlash (get_staging_key "incoming/a/b.csv" "b.csv" none none).data =
      false :=
  c3_collapse_idempotent "incoming/a/b.csv" "b.csv" none none (by decide)

lemma takeWhile_eq_self_of_all {α : Type} {p : α → Bool} :
    ∀ {l : List α}, (∀ c ∈ l, p c = true) → l.takeWhile p = l
  | [], _ => rfl
  | a :: l, h => by
    rw [List.takeWhile_cons_of_pos (h a (by simp))]
    rw [takeWhile_eq_self_of_all fun c hc => h c (by simp [hc])]

lemma dropWhile_head_false {α : Type} {p : α → Bool} :
    ∀ {l : List α} {c : α} {t : List α}, l.dropWhile p = c :: t → p c = false := by
  intro l
  induction l with
  | nil => intro c t h; cases h
  | cons a l' ih =>
    intro c t h
    by_cases hp : p a = true
    · rw [List.dropWhile_cons_of_pos hp] at h
      exact ih h
    · rw [List.dropWhile_cons_of_neg hp] at h
      cases h
      simpa using hp

lemma dropWhile_eq_drop_length_takeWhile {α : Type} {p : α → Bool} :
    ∀ l : List α, l.dropWhile p = l.drop (l.takeWhile p).length
  | [] => rfl
  | a :: l => by
    by_cases hp : p a = true
    · rw [List.dropWhile_cons_of_pos hp, List.takeWhile_cons_of_pos hp]
      simp [dropWhile_eq_drop_length_takeWhile l]
    · rw [List.dropWhile_cons_of_neg hp, List.takeWhile_cons_of_neg hp]
      simp

lemma get_folder_path_no_slash {key : String} (h : '/' ∉ key.data) :
    get_folder_path_from_key key = "" := by
  unfold get_folder_path_from_key
  rw [if_pos]
  rw [takeWhile_eq_self_of_all]
  intro c hc
  have hmem : c ∈ key.data := List.mem_reverse.mp hc
  have hne : c ≠ '/' := fun he => h (he ▸ hmem)
  simp [hne]

lemma get_folder_path_split {key : String} (h : '/' ∈ key.data) :
    ∃ fname : List Char,
      key = get_folder_path_from_key key ++ ⟨fname⟩ ∧ '/' ∉ fname ∧
      (get_folder_path_from_key key).data.getLast? = some '/' := by
  have hne : (key.data.reverse.takeWhile fun c => !(c == '/')).length ≠
      key.data.reverse.length := by
    intro he
    have hpre := List.takeWhile_prefix (l := key.data.reverse) (p := fun c => !(c == '/'))
    have heq := hpre.eq_of_length he
    have hmem : '/' ∈ key.data.reverse := List.mem_reverse.mpr h
    have hp := List.mem_takeWhile_imp (heq ▸ hmem)
    simp at hp
  have hfold : get_folder_path_from_key key =
      ⟨(key.data.reverse.drop
        (key.data.reverse.takeWhile fun c => !(c == '/')).length).reverse⟩ := by
    unfold get_folder_path_from_key
    rw [if_neg hne]
  have hdrop : key.data.reverse.drop
      (key.data.reverse.takeWhile fun c => !(c == '/')).length =
      key.data.reverse.dropWhile fun c => !(c == '/') :=
    (dropWhile_eq_drop_length_takeWhile _).symm
  refine ⟨(key.data.reverse.takeWhile fun c => !(c == '/')).reverse, ?_, ?_, ?_⟩
  · rw [hfold]
    show key = String.mk _
    rw [hdrop, ← List.reverse_append, List.takeWhile_append_dropWhile,
      List.reverse_reverse]
  · intro hc
    have hc' := List.mem_reverse.mp hc
    have := List.mem_takeWhile_imp hc'
    simp at this
  · rw [hfold]
    show ((key.data.reverse.drop _).reverse).getLast? = some '/'
    rw [hdrop, List.getLast?_reverse]
    cases hd : key.data.reverse.dropWhile fun c => !(c == '/') with
    | nil =>
      exfalso
      have hall := List.dropWhile_eq_nil_iff.mp hd
      have hmem : '/' ∈ key.data.reverse := List.mem_reverse.mpr h
      have := hall '/' hmem
      simp at this
    | cons c t =>
      have hc := dropWhile_head_false hd
      have hc' : c = '/' := by
        by_contra hcc
        simp [hcc] at hc
      simp [hc']

/-- C5: the staging base is the folder override whenever one is
provided, and otherwise the folder portion of the object key — the
prefix up to and including the last `/` (its remainder is slash-free and
it ends in `/`), or the empty string when the key has no `/`; on
`incoming/clientA/file.csv` without partitioning the base is
`incoming/clientA/` and the final staging key reproduces the raw key. -/
theorem c5_base_resolution :
    (∀ rawKey folderOverride,
        staging_base rawKey (some folderOverride) = folderOverride) ∧
    (∀ rawKey, staging_base rawKey none = get_folder_path_from_key rawKey) ∧
    (∀ key : String, '/' ∉ key.data → get_folder_path_from_key key = "") ∧
    (∀ key : String, '/' ∈ key.data → ∃ fname : List Char,
        key = get_folder_path_from_key key ++ ⟨fname⟩ ∧ '/' ∉ fname ∧
        (get_folder_path_from_key key).data.getLast? = some '/') ∧
    staging_base "incoming/clientA/file.csv" none = "incoming/clientA/" ∧
    get_staging_key "incoming/clientA/file.csv" "file.csv" none none =
      "incoming/clientA/file.csv" :=
  ⟨fun _ _ => rfl, fun _ => rfl,
   fun _ h => get_folder_path_no_slash h,
   fun _ h => get_folder_path_split h,
   by decide, by decide⟩

theorem c5_base_resolution_witness :
    (∀ key : String, '/' ∉ key.data → get_folder_path_from_key key = "") ∧
    (∃ fname : List Char,
      ("incoming/clientA/file.csv" : String) =
        get_folder_path_from_key "incoming/clientA/file.csv" ++ ⟨fname⟩ ∧
      '/' ∉ fname ∧
      (get_folder_path_from_key "incoming/clientA/file.csv").data.getLast? =
        some '/') :=
  ⟨c5_base_resolution.2.2.1,
   c5_base_resolution.2.2.2.1 "incoming/clientA/file.csv" (by decide)⟩

lemma takeWhile_append_of_all {α : Type} {p : α → Bool} :
    ∀ (a b : List α), (∀ c ∈ a, p c = true) →
      (a ++ b).takeWhile p = a ++ b.takeWhile p
  | [], _, _ => rfl
  | x :: a, b, h => by
    rw [List.cons_append, List.takeWhile_cons_of_pos (h x (by simp))]
    rw [takeWhile_append_of_all a b fun c hc => h c (by simp [hc])]
    rfl

lemma dropWhile_append_of_all {α : Type} {p : α → Bool} :
    ∀ (a b : List α), (∀ c ∈ a, p c = true) →
      (a ++ b).dropWhile p = b.dropWhile p
  | [], _, _ => rfl
  | x :: a, b, h => by
    rw [List.cons_append, List.dropWhile_cons_of_pos (h x (by simp))]
    exact dropWhile_append_of_all a b fun c hc => h c (by simp [hc])

lemma length_dropWhile_le {α : Type} (p : α → Bool) (l : List α) :
    (l.dropWhile p).length ≤ l.length := by
  rw [dropWhile_eq_drop_length_takeWhile, List.length_drop]
  omega

lemma tryPartitionMatch_length {cs r : List Char}
    (h : tryPartitionMatch cs = some r) : r.length ≤ cs.length := by
  unfold tryPartitionMatch at h
  cases hd : cs.dropWhile partitionIdChar with
  | nil => rw [hd] at h; cases h
  | cons x r2 =>
    rw [hd] at h
    have hlen : r2.length + 1 ≤ cs.length := by
      have := length_dropWhile_le partitionIdChar cs
      rw [hd] at this
      simpa using this
    replace h : (if x = '=' then
        (match r2.takeWhile Char.isDigit with
         | [] => none
         | _ :: _ => some (r2.dropWhile Char.isDigit))
      else none) = some r := h
    by_cases hx : x = '='
    · rw [if_pos hx] at h
      cases ht : r2.takeWhile Char.isDigit with
      | nil => rw [ht] at h; cases h
      | cons y t =>
        rw [ht] at h
        have hr := Option.some.inj h
        subst hr
        have h2 := length_dropWhile_le Char.isDigit r2
        omega
    · rw [if_neg hx] at h
      cases h

lemma removeDTFuel_congr :
    ∀ (f1 f2 : Nat) (s : List Char), s.length < f1 → s.length < f2 →
      removeDTFuel f1 s = removeDTFuel f2 s := by
  intro f1
  induction f1 with
  | zero => intro f2 s h1 _; omega
  | succ f1 ih =>
    intro f2 s h1 h2
    cases f2 with
    | zero => omega
    | succ f2 =>
      cases s with
      | nil => rfl
      | cons c cs =>
        simp only [removeDTFuel]
        by_cases hc : c = '/'
        · rw [if_pos hc, if_pos hc]
          cases hm : tryPartitionMatch cs with
          | some rest =>
            have hr := tryPartitionMatch_length hm
            have hlen : cs.length + 1 = (c :: cs).length := rfl
            exact ih f2 rest (by simp at h1; omega) (by simp at h2; omega)
          | none =>
            rw [ih f2 cs (by simp at h1; omega) (by simp at h2; omega)]
        · rw [if_neg hc, if_neg hc]
          rw [ih f2 cs (by simp at h1; omega) (by simp at h2; omega)]

lemma removeDT_cons_match {cs r : List Char}
    (h : tryPartitionMatch cs = some r) :
    removeDT ('/' :: cs) = removeDT r := by
  show removeDTFuel (cs.length + 1 + 1) ('/' :: cs) = removeDT r
  simp only [removeDTFuel, if_pos rfl, h]
  exact removeDTFuel_congr (cs.length + 1) (r.length + 1) r
    (Nat.lt_succ_of_le (tryPartitionMatch_length h)) (Nat.lt_succ_self _)

lemma removeDT_cons_no_match {cs : List Char}
    (h : tryPartitionMatch cs = none) :
    removeDT ('/' :: cs) = '/' :: removeDT cs := by
  show removeDTFuel (cs.length + 1 + 1) ('/' :: cs) = _
  simp only [removeDTFuel, if_pos rfl, h]
  rfl

lemma removeDT_cons_other {c : Char} {cs : List Char} (h : c ≠ '/') :
    removeDT (c :: cs) = c :: removeDT cs := by
  show removeDTFuel (cs.length + 1 + 1) (c :: cs) = _
  simp only [removeDTFuel, if_neg h]
  rfl

lemma tryPartitionMatch_append_none {cs rest : List Char}
    (hrest : rest = [] ∨ ∃ rs, rest = '/' :: rs)
    (h : tryPartitionMatch cs = none) :
    tryPartitionMatch (cs ++ rest) = none := by
  unfold tryPartitionMatch at h ⊢
  cases hd : cs.dropWhile partitionIdChar with
  | nil =>
    have hall := List.dropWhile_eq_nil_iff.mp hd
    rw [dropWhile_append_of_all cs rest hall]
    rcases hrest with rfl | ⟨rs, rfl⟩
    · rfl
    · rw [List.dropWhile_cons_of_neg (by decide)]
      show (if ('/' : Char) = '=' then
          (match rs.takeWhile Char.isDigit with
           | [] => none
           | _ :: _ => some (rs.dropWhile Char.isDigit))
        else none) = none
      rw [if_neg (by decide)]
  | cons d t =>
    rw [hd] at h
    replace h : (if d = '=' then
        (match t.takeWhile Char.isDigit with
         | [] => none
         | _ :: _ => some (t.dropWhile Char.isDigit))
      else none) = none := h
    have hps : partitionIdChar d = false := dropWhile_head_false hd
    have hsplit : cs = cs.takeWhile partitionIdChar ++ (d :: t) := by
      conv_lhs => rw [← List.takeWhile_append_dropWhile (p := partitionIdChar) (l := cs)]
      rw [hd]
    have hd2 : (cs ++ rest).dropWhile partitionIdChar = d :: (t ++ rest) := by
      conv_lhs => rw [hsplit]
      rw [List.append_assoc,
        dropWhile_append_of_all _ _ fun c hc => List.mem_takeWhile_imp hc]
      rw [List.cons_append, List.dropWhile_cons_of_neg (by simp [hps])]
    rw [hd2]
    by_cases hdeq : d = '='
    · rw [if_pos hdeq] at h
      have htw : t.takeWhile Char.isDigit = [] := by
        cases htw' : t.takeWhile Char.isDigit with
        | nil => rfl
        | cons y ys => rw [htw'] at h; cases h
      have hcomb : (t ++ rest).takeWhile Char.isDigit = [] := by
        cases t with
        | nil =>
          rcases hrest with rfl | ⟨rs, rfl⟩
          · rfl
          · rw [List.nil_append, List.takeWhile_cons_of_neg (by decide)]
        | cons u us =>
          have hu : Char.isDigit u = false := by
            by_cases hud : Char.isDigit u = true
            · rw [List.takeWhile_cons_of_pos hud] at htw
              cases htw
            · simpa using hud
          rw [List.cons_append, List.takeWhile_cons_of_neg (by simp [hu])]
      show (if d = '=' then
          (match (t ++ rest).takeWhile Char.isDigit with
           | [] => none
           | _ :: _ => some ((t ++ rest).dropWhile Char.isDigit))
        else none) = none
      rw [if_pos hdeq, hcomb]
    · show (if d = '=' then
          (match (t ++ rest).takeWhile Char.isDigit with
           | [] => none
           | _ :: _ => some ((t ++ rest).dropWhile Char.isDigit))
        else none) = none
      rw [if_neg hdeq]

lemma tryPartitionMatch_exact {ids ds : List Char} (rest : List Char)
    (hids : ∀ c ∈ ids, partitionIdChar c = true)
    (hds : ∀ c ∈ ds, Char.isDigit c = true) (hne : ds ≠ [])
    (hrest : ∀ c, rest.head? = some c → Char.isDigit c = false) :
    tryPartitionMatch (ids ++ '=' :: (ds ++ rest)) = some rest := by
  unfold tryPartitionMatch
  have h1 : (ids ++ '=' :: (ds ++ rest)).dropWhile partitionIdChar =
      '=' :: (ds ++ rest) := by
    rw [dropWhile_append_of_all _ _ hids]
    rw [List.dropWhile_cons_of_neg (by decide)]
  rw [h1]
  have h3 : rest.takeWhile Char.isDigit = [] := by
    cases rest with
    | nil => rfl
    | cons c rs => rw [List.takeWhile_cons_of_neg (by simp [hrest c rfl])]
  have h2 : (ds ++ rest).takeWhile Char.isDigit = ds := by
    rw [takeWhile_append_of_all _ _ hds, h3, List.append_nil]
  have h4 : (ds ++ rest).dropWhile Char.isDigit = rest := by
    rw [dropWhile_append_of_all _ _ hds]
    cases rest with
    | nil => rfl
    | cons c rs => rw [List.dropWhile_cons_of_neg (by simp [hrest c rfl])]
  show (if ('=' : Char) = '=' then
      (match (ds ++ rest).takeWhile Char.isDigit with
       | [] => none
       | _ :: _ => some ((ds ++ rest).dropWhile Char.isDigit))
    else none) = some rest
  rw [if_pos rfl, h2]
  cases ds with
  | nil => exact absurd rfl hne
  | cons d0 ds' =>
    show some ((d0 :: ds' ++ rest).dropWhile Char.isDigit) = some rest
    rw [h4]

/-- Whether the date-partition pattern matches anywhere in the list:
some `/` position admits a partition match right after it. -/
def hasPartitionOcc : List Char → Bool
  | [] => false
  | c :: cs => (c = '/' && (tryPartitionMatch cs).isSome) || hasPartitionOcc cs

lemma hasPartitionOcc_cons_false {c : Char} {cs : List Char}
    (h : hasPartitionOcc (c :: cs) = false) :
    hasPartitionOcc cs = false ∧ (c = '/' → tryPartitionMatch cs = none) := by
  simp only [hasPartitionOcc, Bool.or_eq_false_iff, Bool.and_eq_false_iff] at h
  refine ⟨h.2, fun hc => ?_⟩
  rcases h.1 with h1 | h1
  · subst hc; simp at h1
  · exact Option.not_isSome_iff_eq_none.mp (by simp [h1])

lemma removeDT_append_chunk :
    ∀ (ch rest : List Char), hasPartitionOcc ch = false →
    (rest = [] ∨ ∃ rs, rest = '/' :: rs) →
    removeDT (ch ++ rest) = ch ++ removeDT rest := by
  intro ch
  induction ch with
  | nil => intro rest _ _; rw [List.nil_append, List.nil_append]
  | cons c ch' ih =>
    intro rest hocc hrest
    obtain ⟨hocc', himp⟩ := hasPartitionOcc_cons_false hocc
    by_cases hc : c = '/'
    · subst hc
      have hnone := tryPartitionMatch_append_none hrest (himp rfl)
      rw [List.cons_append, removeDT_cons_no_match hnone, ih rest hocc' hrest,
        List.cons_append]
    · rw [List.cons_append, removeDT_cons_other hc, ih rest hocc' hrest,
        List.cons_append]

/-- A full date-partition segment: `/`, then identifier characters, then
`=`, then at least one digit, to the end of the segment. -/
def isPartitionSeg (s : List Char) : Bool :=
  match s with
  | [] => false
  | c :: rest =>
    c = '/' &&
      (match rest.dropWhile partitionIdChar with
       | [] => false
       | d :: r2 => d = '=' && !r2.isEmpty && r2.all Char.isDigit)

lemma isPartitionSeg_elim {s : List Char} (h : isPartitionSeg s = true) :
    ∃ ids ds, s = '/' :: (ids ++ '=' :: ds) ∧
      (∀ c ∈ ids, partitionIdChar c = true) ∧
      (∀ c ∈ ds, Char.isDigit c = true) ∧ ds ≠ [] := by
  cases s with
  | nil => simp [isPartitionSeg] at h
  | cons c rest =>
    replace h : (c = '/' &&
        (match rest.dropWhile partitionIdChar with
         | [] => false
         | d :: r2 => d = '=' && !r2.isEmpty && r2.all Char.isDigit)) = true := h
    rw [Bool.and_eq_true] at h
    obtain ⟨hc, h2⟩ := h
    have hc' : c = '/' := by simpa using hc
    subst hc'
    cases hd : rest.dropWhile partitionIdChar with
    | nil => rw [hd] at h2; cases h2
    | cons d r2 =>
      rw [hd] at h2
      simp only [Bool.and_eq_true, decide_eq_true_eq, Bool.not_eq_true',
        List.all_eq_true] at h2
      obtain ⟨⟨hdeq, hr2ne⟩, hr2d⟩ := h2
      subst hdeq
      refine ⟨rest.takeWhile partitionIdChar, r2, ?_, ?_, ?_, ?_⟩
      · show ('/' : Char) :: rest = '/' :: (rest.takeWhile partitionIdChar ++ '=' :: r2)
        rw [show ('=' : Char) :: r2 = rest.dropWhile partitionIdChar from hd.symm,
          List.takeWhile_append_dropWhile]
      · exact fun c hc => List.mem_takeWhile_imp hc
      · exact fun c hc => hr2d c hc
      · intro hcontr
        subst hcontr
        simp at hr2ne

lemma removeDT_seg {ids ds : List Char} (rest : List Char)
    (hids : ∀ c ∈ ids, partitionIdChar c = true)
    (hds : ∀ c ∈ ds, Char.isDigit c = true) (hne : ds ≠ [])
    (hrest : ∀ c, rest.head? = some c → Char.isDigit c = false) :
    removeDT (('/' :: (ids ++ '=' :: ds)) ++ rest) = removeDT rest := by
  have hshape : ('/' :: (ids ++ '=' :: ds)) ++ rest =
      '/' :: (ids ++ '=' :: (ds ++ rest)) := by simp
  rw [hshape, removeDT_cons_match (tryPartitionMatch_exact rest hids hds hne hrest)]

lemma pairsJoin_shape (pairs : List (List Char × List Char))
    (hp : ∀ p ∈ pairs, isPartitionSeg p.1 = true) :
    (pairs.map fun p => p.1 ++ p.2).flatten = [] ∨
      ∃ rs, (pairs.map fun p => p.1 ++ p.2).flatten = '/' :: rs := by
  cases pairs with
  | nil => exact Or.inl rfl
  | cons p ps =>
    obtain ⟨ids, ds, hp1, -, -, -⟩ := isPartitionSeg_elim (hp p (by simp))
    refine Or.inr ⟨(ids ++ '=' :: ds) ++ p.2 ++ (ps.map fun q => q.1 ++ q.2).flatten, ?_⟩
    rw [List.map_cons, List.flatten_cons, hp1]
    simp

/-- Whether a list does not begin with a digit (vacuously true when
empty). -/
def headNotDigit (l : List Char) : Bool :=
  match l.head? with
  | none => true
  | some c => !c.isDigit

lemma headNotDigit_elim {l : List Char} (h : headNotDigit l = true) :
    ∀ c, l.head? = some c → Char.isDigit c = false := by
  intro c hc
  unfold headNotDigit at h
  rw [hc] at h
  simpa using h

lemma removeDT_pairs_join :
    ∀ (pairs : List (List Char × List Char)),
    (∀ p ∈ pairs, isPartitionSeg p.1 = true ∧ hasPartitionOcc p.2 = false ∧
      headNotDigit p.2 = true) →
    removeDT ((pairs.map fun p => p.1 ++ p.2).flatten) =
      (pairs.map Prod.snd).flatten := by
  intro pairs
  induction pairs with
  | nil => intro _; rfl
  | cons p ps ih =>
    intro hp
    obtain ⟨hseg, hocc, hdig⟩ := hp p (by simp)
    obtain ⟨ids, ds, hp1, hids, hds, hne⟩ := isPartitionSeg_elim hseg
    have hjoin_shape := pairsJoin_shape ps fun q hq => (hp q (by simp [hq])).1
    have hrest_nodigit : ∀ c,
        (p.2 ++ (ps.map fun q => q.1 ++ q.2).flatten).head? = some c →
        Char.isDigit c = false := by
      intro c hc
      rw [List.head?_append] at hc
      cases hp2 : p.2.head? with
      | some u =>
        rw [hp2] at hc
        have : u = c := Option.some.inj hc
        subst this
        exact headNotDigit_elim hdig u hp2
      | none =>
        rw [hp2] at hc
        simp only [Option.none_or] at hc
        rcases hjoin_shape with hsh | ⟨rs, hsh⟩
        · rw [hsh] at hc; cases hc
        · rw [hsh] at hc
          have : ('/' : Char) = c := Option.some.inj hc
          subst this
          decide
    rw [List.map_cons, List.flatten_cons, List.map_cons, List.flatten_cons]
    rw [hp1, List.append_assoc]
    rw [removeDT_seg _ hids hds hne hrest_nodigit]
    rw [removeDT_append_chunk _ _ hocc hjoin_shape]
    rw [ih fun q hq => hp q (by simp [hq])]

/-- C4: with a partition specification, computing the staging key
removes from the base exactly the (maximal) occurrences of
date-partition segments — `/`, identifier characters, `=`, one or more
digits — wherever they occur, leaves every other part of the base
unchanged, and only then appends the formatted partition string and the
file name.  The base is presented as its decomposition into
occurrence-free chunks and partition segments; a chunk following a
segment must not begin with a digit, which makes the listed segments the
maximal matches of the pattern. -/
theorem c4_partition_stripping (c0 : List Char)
    (pairs : List (List Char × List Char)) (rawKey rawFileName fmt : String)
    (h0 : hasPartitionOcc c0 = false)
    (hp : ∀ p ∈ pairs, isPartitionSeg p.1 = true ∧ hasPartitionOcc p.2 = false ∧
      headNotDigit p.2 = true) :
    remove_datetime_partitions_from_key
        ⟨c0 ++ (pairs.map fun p => p.1 ++ p.2).flatten⟩ =
      ⟨c0 ++ (pairs.map Prod.snd).flatten⟩ ∧
    get_staging_key rawKey rawFileName
        (some ⟨c0 ++ (pairs.map fun p => p.1 ++ p.2).flatten⟩) (some fmt) =
      pyCollapseSlashes ((⟨c0 ++ (pairs.map Prod.snd).flatten⟩ : String) ++
        "/" ++ fmt ++ "/" ++ rawFileName) := by
  have h1 : removeDT (c0 ++ (pairs.map fun p => p.1 ++ p.2).flatten) =
      c0 ++ (pairs.map Prod.snd).flatten := by
    rw [removeDT_append_chunk c0 _ h0
      (pairsJoin_shape pairs fun q hq => (hp q hq).1)]
    rw [removeDT_pairs_join pairs hp]
  have hstr : remove_datetime_partitions_from_key
      ⟨c0 ++ (pairs.map fun p => p.1 ++ p.2).flatten⟩ =
      ⟨c0 ++ (pairs.map Prod.snd).flatten⟩ := congrArg String.mk h1
  refine ⟨hstr, ?_⟩
  show pyCollapseSlashes ((remove_datetime_partitions_from_key
      ⟨c0 ++ (pairs.map fun p => p.1 ++ p.2).flatten⟩ ++ "/" ++ fmt) ++
        "/" ++ rawFileName) = _
  rw [hstr]

theorem c4_partition_stripping_witness :
    remove_datetime_partitions_from_key "data/year=2023/month=01" = "data" ∧
    get_staging_key "k" "f.csv" (some "data/year=2023/month=01")
        (some "year=2024/month=03") =
      pyCollapseSlashes (("data" : String) ++ "/" ++ "year=2024/month=03" ++
        "/" ++ "f.csv") := by
  have h := c4_partition_stripping "data".data
    [("/year=2023".data, []), ("/month=01".data, [])] "k" "f.csv"
    "year=2024/month=03" (by decide) (by decide)
  have e1 : (⟨"data".data ++
      ([("/year=2023".data, ([] : List Char)),
        ("/month=01".data, ([] : List Char))].map fun p => p.1 ++ p.2).flatten⟩ :
      String) = "data/year=2023/month=01" := by decide
  have e2 : (⟨"data".data ++
      ([("/year=2023".data, ([] : List Char)),
        ("/month=01".data, ([] : List Char))].map Prod.snd).flatten⟩ :
      String) = "data" := by decide
  rw [e1, e2] at h
  exact h

/-! ## Model of `startFileProcessing.py` -/

/-- State-machine form of `re.sub('\W+', '_', key)`: a word character is
emitted and clears the in-a-run flag; a non-word character emits a
single `_` at the start of each maximal run and is skipped inside
one. -/
def subNonWordAux (prevNonWord : Bool) : List Char → List Char
  | [] => []
  | c :: cs =>
    if isWordChar c then c :: subNonWordAux false cs
    else if prevNonWord then subNonWordAux true cs
    else '_' :: subNonWordAux true cs

/-- `re.sub('\W+', '_', key)` of `start_step_function_for_file`. -/
def subNonWord (s : String) : String :=
  ⟨subNonWordAux false s.data⟩

/-- `id_generator`: six draws from `random.choice`, with the random
choices supplied by `pick`. -/
def id_generator (pick : Nat → Char) : String :=
  ⟨(List.range 6).map pick⟩

/-- The step-function execution name of
`start_step_function_for_file`: timestamp, random id, `_`, sanitised
key, truncated to the first 80 characters.  The timestamp
(`datetime.now().strftime('%Y%m%d%H%M%S%f')`) and the random choices
are inputs. -/
def step_function_name (timestamp : String) (pick : Nat → Char)
    (key : String) : String :=
  ⟨(timestamp ++ id_generator pick ++ "_" ++ subNonWord key).data.take 80⟩

lemma subNonWordAux_word_run :
    ∀ (w rest : List Char), (∀ c ∈ w, isWordChar c = true) →
      subNonWordAux false (w ++ rest) = w ++ subNonWordAux false rest
  | [], _, _ => rfl
  | c :: w, rest, h => by
    rw [List.cons_append]
    simp only [subNonWordAux, h c (by simp), if_true]
    rw [subNonWordAux_word_run w rest fun x hx => h x (by simp [hx])]
    rfl

lemma subNonWordAux_true_skip :
    ∀ (nw rest : List Char), (∀ c ∈ nw, isWordChar c = false) →
      (rest = [] ∨ ∃ c rs, rest = c :: rs ∧ isWordChar c = true) →
      subNonWordAux true (nw ++ rest) = subNonWordAux false rest
  | [], rest, _, hrest => by
    rcases hrest with rfl | ⟨c, rs, rfl, hc⟩
    · rfl
    · rw [List.nil_append]
      simp only [subNonWordAux, hc, if_true]
  | d :: nw, rest, h, hrest => by
    rw [List.cons_append]
    simp only [subNonWordAux, h d (by simp)]
    exact subNonWordAux_true_skip nw rest (fun c hc => h c (by simp [hc])) hrest

lemma subNonWordAux_nonword_run (nw rest : List Char) (hne : nw ≠ [])
    (h : ∀ c ∈ nw, isWordChar c = false)
    (hrest : rest = [] ∨ ∃ c rs, rest = c :: rs ∧ isWordChar c = true) :
    subNonWordAux false (nw ++ rest) = '_' :: subNonWordAux false rest := by
  cases nw with
  | nil => exact absurd rfl hne
  | cons d nw' =>
    rw [List.cons_append]
    simp only [subNonWordAux, h d (by simp), Bool.false_eq_true, if_false]
    rw [subNonWordAux_true_skip nw' rest (fun c hc => h c (by simp [hc])) hrest]

lemma subNonWord_blocks :
    ∀ (pairs : List (List Char × List Char)) (trailing : List Char),
    (∀ p ∈ pairs, p.1 ≠ [] ∧ (∀ c ∈ p.1, isWordChar c = false) ∧
      p.2 ≠ [] ∧ (∀ c ∈ p.2, isWordChar c = true)) →
    (∀ c ∈ trailing, isWordChar c = false) →
    subNonWordAux false ((pairs.map fun p => p.1 ++ p.2).flatten ++ trailing) =
      (pairs.map fun p => '_' :: p.2).flatten ++
        (if trailing = [] then [] else ['_']) := by
  intro pairs
  induction pairs with
  | nil =>
    intro trailing _ htr
    simp only [List.map_nil, List.flatten_nil, List.nil_append]
    cases trailing with
    | nil => rfl
    | cons c tr =>
      rw [if_neg (by simp)]
      have := subNonWordAux_nonword_run (c :: tr) [] (by simp) htr (Or.inl rfl)
      rw [List.append_nil] at this
      rw [this]
      rfl
  | cons p ps ih =>
    intro trailing hp htr
    obtain ⟨hne1, hnw, hne2, hw⟩ := hp p (by simp)
    rw [List.map_cons, List.flatten_cons, List.map_cons, List.flatten_cons]
    have hassoc : (p.1 ++ p.2) ++ (ps.map fun q => q.1 ++ q.2).flatten ++ trailing =
        p.1 ++ (p.2 ++ ((ps.map fun q => q.1 ++ q.2).flatten ++ trailing)) := by
      simp
    rw [hassoc]
    have hhead : p.2 ++ ((ps.map fun q => q.1 ++ q.2).flatten ++ trailing) = [] ∨
        ∃ c rs, p.2 ++ ((ps.map fun q => q.1 ++ q.2).flatten ++ trailing) = c :: rs ∧
          isWordChar c = true := by
      cases hp2 : p.2 with
      | nil => exact absurd hp2 hne2
      | cons u us =>
        exact Or.inr ⟨u, us ++ ((ps.map fun q => q.1 ++ q.2).flatten ++ trailing),
          by simp, hw u (by simp [hp2])⟩
    rw [subNonWordAux_nonword_run p.1 _ hne1 hnw hhead]
    rw [subNonWordAux_word_run p.2 _ hw]
    rw [ih trailing (fun q hq => hp q (by simp [hq])) htr]
    simp

/-- C10: the workflow execution name is the concatenation of the
timestamp, the six-character random identifier, `_`, and the sanitised
key, truncated to at most 80 characters; sanitisation replaces every
maximal run of non-word characters in the key by a single `_`, given by
the decomposition of the key into word blocks and nonempty non-word
runs. -/
theorem c10_execution_name_derivation (timestamp : String) (pick : Nat → Char)
    (key : String) :
    step_function_name timestamp pick key =
      ⟨(timestamp ++ id_generator pick ++ "_" ++ subNonWord key).data.take 80⟩ ∧
    (id_generator pick).length = 6 ∧
    (step_function_name timestamp pick key).length ≤ 80 ∧
    (∀ (w0 : List Char) (pairs : List (List Char × List Char))
        (trailing : List Char),
      (∀ c ∈ w0, isWordChar c = true) →
      (∀ p ∈ pairs, p.1 ≠ [] ∧ (∀ c ∈ p.1, isWordChar c = false) ∧
        p.2 ≠ [] ∧ (∀ c ∈ p.2, isWordChar c = true)) →
      (∀ c ∈ trailing, isWordChar c = false) →
      key = ⟨w0 ++ ((pairs.map fun p => p.1 ++ p.2).flatten ++ trailing)⟩ →
      subNonWord key = ⟨w0 ++ ((pairs.map fun p => '_' :: p.2).flatten ++
        (if trailing = [] then [] else ['_']))⟩) := by
  refine ⟨rfl, ?_, ?_, ?_⟩
  · simp [id_generator, String.length]
  · show ((timestamp ++ id_generator pick ++ "_" ++
      subNonWord key).data.take 80).length ≤ 80
    rw [List.length_take]
    omega
  · intro w0 pairs trailing hw0 hp htr hkey
    subst hkey
    refine congrArg String.mk ?_
    show subNonWordAux false (w0 ++ _) = _
    rw [subNonWordAux_word_run w0 _ hw0]
    rw [subNonWord_blocks pairs trailing hp htr]

theorem c10_execution_name_derivation_witness :
    subNonWord "a b.c" = "a_b_c" ∧
    (step_function_name "20260101" (fun _ => 'A') "a b.c").length ≤ 80 := by
  have h := c10_execution_name_derivation "20260101" (fun _ => 'A') "a b.c"
  refine ⟨?_, h.2.2.1⟩
  have h4 := h.2.2.2 ['a'] [([' '], ['b']), (['.'], ['c'])] []
    (by decide) (by decide) (by decide) (by decide)
  rw [h4]
  decide
